import Mathlib

/-!
# Shallow embedding of `flashcardz` (src/flashcardz/flashcardz.py)

This file models the card store (`_open`, `add`) and the review session
(`go`) of the flashcardz program and proves the specification claims
about them.

Modelling conventions:
* Python strings are Lean `String`s; the classification predicates that
  the program applies to raw input tokens (`isnumeric`, `s[0].lower()`,
  slicing) are defined on `String.data`, the underlying character list.
  Python's `str.lower` / `str.isnumeric` are modelled at ASCII level via
  `Char.toLower` / `Char.isDigit`, which is what the program's tokens
  (`y`, `n`, `q`, `e`, `a`, `i`, digits, `-`) exercise.
* `viewed` and `tally` travel as strings in the Python row lists and are
  converted with `int(...)` at their use sites; since non-numeric fields
  are coerced to `'0'` on load and all later uses are numeric, the model
  stores them as `Int` values, converting at load time.
* File I/O is explicit: `_open` receives `Option (List Row)` (`none` =
  the `open()` call raised, which the function's `except Exception`
  handler catches after `_cards = []` was assigned).  `sys.exit()`
  raises `SystemExit`, which is *not* an `Exception` in Python and
  escapes the handler; it is modelled as the distinguished outcome
  `OpenOutcome.halt`.  A zero-field row (blank line) raises `IndexError`
  at the date check, which the handler catches, returning the rows
  accumulated so far.
* `go`'s shuffled `index_list` is a parameter `order`; theorems
  hypothesise the properties it has by construction (a duplicate-free
  list of in-range indices).  User input is a parameter `inputs`
  consumed one prompt at a time; a run that consumes more inputs than
  provided is the `none` / `stuck` outcome, which theorems exclude.
* The printed end-of-pass percentage is modelled as returned data; the
  Python `int(100 * (len - missed)/len)` truncates toward zero, i.e.
  `Int.tdiv`.
* `random.random`-based shuffling, `webbrowser.open`, `time.sleep` and
  all pure printing are not modelled; they do not affect the card data.
-/

namespace Flashcardz

/-- `delimiter = '|'` (flashcardz.py line 48).  The program's delimiter is a
single character, so `str.replace(delimiter, substitute)` is charwise. -/
def delimiter : Char := '|'

/-- `substitute = ';'` (line 49). -/
def substitute : Char := ';'

/-- Python `word.replace(delimiter, substitute)` for the one-character
delimiter: substitute every pipe character. -/
def subDelim (s : String) : String :=
  String.mk (s.data.map (fun c => if c = delimiter then substitute else c))

/-- Python `s.isnumeric()`: nonempty and every character numeric
(ASCII digits in this model). -/
def isNumeric (s : String) : Bool :=
  !s.data.isEmpty && s.data.all Char.isDigit

/-- Python `s and s[0].lower() == c`: nonempty and lowered first character
equals `c`. -/
def firstIs (s : String) (c : Char) : Bool :=
  match s.data with
  | [] => false
  | a :: _ => a.toLower = c

/-- The guard `ans and (ans[0].lower() == 'q' or ans[0].lower() == 'e')`
used for every quit check in `go` (lines 698, 733, 752). -/
def quitTok (s : String) : Bool :=
  firstIs s 'q' || firstIs s 'e'

/-- The guard `ans and ans[0] == '-' and ans[1:] and ans[1:].isnumeric()`
(line 745). -/
def dashNum (s : String) : Bool :=
  match s.data with
  | [] => false
  | a :: t => a = '-' && !t.isEmpty && t.all Char.isDigit

/-- `''.join(x.split()).lower()`: the word normalisation used by `add` for
duplicate detection (lines 380-382): all whitespace removed, lowercased. -/
def normalize (s : String) : String :=
  String.mk ((s.data.filter (fun c => !c.isWhitespace)).map Char.toLower)

/-- A card record: `word | definition | date | viewed | tally`
(one row of the data file; list indices 0-4 in the Python code). -/
structure Card where
  word : String
  definition : String
  created : String
  viewed : Int
  tally : Int
deriving DecidableEq

/-- The settings `go` consumes: `_settings['maxtally']`,
`_settings['tallypenalty']` (both read as `int`), and
`_settings['abort']`. -/
structure Settings where
  maxtally : Int
  tallypenalty : Int
  abort : Bool
deriving DecidableEq

/-! ## Card store: `_open` (lines 484-540) -/

/-- One line of the data file, already split at the delimiter by
`csv.reader`. -/
abbrev Row := List String

/-- Decimal value of a digit string (`int(...)` on an `isnumeric` string). -/
def digitsVal (l : List Char) : Nat :=
  l.foldl (fun n c => 10 * n + (c.toNat - 48)) 0

/-- Numeric value of a viewed/tally field after `_open`'s coercion
(`if not _card[i].isnumeric(): _card[i] = '0'`) followed by the `int()`
conversion at the use sites. -/
def parseCount (s : String) : Int :=
  if isNumeric s then (digitsVal s.data : Nat) else 0

/-- Result of `_open`: either the function returns a list of cards (the
normal path and every caught-exception path alike end in
`return _cards`), or the whole program halts (`sys.exit()`, a
`SystemExit` that the `except Exception` clause does not catch). -/
inductive OpenOutcome where
  | returns (cards : List Card)
  | halt
deriving DecidableEq

/-- Build a card from a row that has (after repair) at least five fields:
date replaced by `today` unless `vd` validates it (the
`datetime.strptime` check, line 524-529), viewed/tally coerced
(lines 530-533). -/
def rowCard (vd : String → Bool) (today : String) (r : Row) : Card :=
  let d0 := r.getD 2 ""
  { word := r.getD 0 "", definition := r.getD 1 "",
    created := if vd d0 then d0 else today,
    viewed := parseCount (r.getD 3 ""),
    tally := parseCount (r.getD 4 "") }

/-- The row loop of `_open` (lines 510-535).  `acc` is the `_cards`
accumulator.  A 1-field row exits the program (lines 517-523); a 0-field
row (blank line) raises `IndexError` at `_card[2]`, caught by the outer
handler which then returns the accumulated cards; a row with 2-4 fields
is repaired to `word, definition, today, '0', '0'` (lines 512-516); the
header row (`word` in field 0) is skipped (line 534). -/
def rowLoop (vd : String → Bool) (today : String) : List Row → List Card → OpenOutcome
  | [], acc => OpenOutcome.returns acc
  | r :: rs, acc =>
    if r.length = 1 then OpenOutcome.halt
    else if r.length = 0 then OpenOutcome.returns acc
    else
      let r' := if r.length < 5 then r.take 2 ++ [today, "0", "0"] else r
      if r'.getD 0 "" = "word" then rowLoop vd today rs acc
      else rowLoop vd today rs (acc ++ [rowCard vd today r'])

/-- `_open` (lines 484-540).  `file = none` models a failed `open()`
call: the `except Exception` handler catches it after `_cards = []`
(line 507) was already assigned, so the function reports the error and
returns the empty list. -/
def openCards (vd : String → Bool) (today : String)
    (file : Option (List Row)) : OpenOutcome :=
  match file with
  | none => OpenOutcome.returns []
  | some rows => rowLoop vd today rows []

/-! ## `add` (lines 286-394) -/

/-- The duplicate-detection loop of `add` (lines 378-388): find the first
card whose normalised word matches, remove it, and append the
replacement (new word and definition, prior date/viewed/tally) at the
end; `none` if no card matches (the loop's `else` clause appends a fresh
card instead). -/
def addLoop (word definition : String) : List Card → Option (List Card)
  | [] => none
  | x :: xs =>
    if normalize x.word = normalize word then
      some (xs ++ [{ word := word, definition := definition,
                     created := x.created, viewed := x.viewed, tally := x.tally }])
    else
      (addLoop word definition xs).map (fun l => x :: l)

/-- `add(word, definition)` (lines 372-394) applied to an already-loaded
deck: validates both arguments are nonempty, substitutes the delimiter,
then upserts.  Returns `none` when validation fails (the Python prints
an error and does not save). -/
def addCards (today word definition : String) (cards : List Card) :
    Option (List Card) :=
  if !word.isEmpty && !definition.isEmpty then
    let w := subDelim word
    let d := subDelim definition
    match addLoop w d cards with
    | some cs => some cs
    | none => some (cards ++ [{ word := w, definition := d,
                                created := today, viewed := 0, tally := 0 }])
  else none

/-! ## Review session: `go` (lines 645-827) -/

/-- Outcome of the `while loop:` response cycle for one card
(lines 727-784): the card advances with its new value, a missed flag
(`n` answer) and a removal mark (`y`/default answer that reached
`maxtally`), the possibly-toggled abort flag and the remaining input;
or the user quit; or the input script ran out. -/
inductive AskResult where
  | advanced (c : Card) (missedIt : Bool) (mark : Bool) (abort : Bool)
      (rest : List String)
  | quit
  | stuck
deriving DecidableEq

/-- The response classification chain (lines 742-784), applied to the
prompt answers for one card until an answer advances to the next card.
Branches in the Python order: numeric link request, `-N` raw-URL
redisplay, `i` guidance, `q`/`e` quit, `a` abort toggle (both
directions), `n` incorrect, `y` correct, default correct.  The first
three only affect display and re-prompt. -/
def askCard (st : Settings) (c : Card) (abort : Bool) :
    List String → AskResult
  | [] => AskResult.stuck
  | ans :: rest =>
    if isNumeric ans then askCard st c abort rest
    else if dashNum ans then askCard st c abort rest
    else if firstIs ans 'i' then askCard st c abort rest
    else if quitTok ans then AskResult.quit
    else if firstIs ans 'a' && abort = false then askCard st c true rest
    else if firstIs ans 'a' && abort = true then askCard st c false rest
    else if firstIs ans 'n' then
      AskResult.advanced
        { c with tally := max 0 (st.maxtally - st.tallypenalty) }
        true false abort rest
    else if firstIs ans 'y' then
      let c' := { c with tally := c.tally + 1 }
      AskResult.advanced c' false (decide (st.maxtally ≤ c'.tally)) abort rest
    else
      let c' := { c with tally := c.tally + 1 }
      AskResult.advanced c' false (decide (st.maxtally ≤ c'.tally)) abort rest

/-- The in-session state of `go`'s card loop: the working copy of the
deck, the session-local abort flag (line 714 initialises it to `False`),
the `unwanted` removal marks, the `missed` cards, and the remaining user
input. -/
structure SessionState where
  cards : List Card
  abort : Bool
  unwanted : List Nat
  missed : List Card
  inputs : List String
deriving DecidableEq

/-- Result of processing one (or more) cards of the pass. -/
inductive StepResult where
  | cont (s : SessionState)
  | quit
  | stuck
deriving DecidableEq

/-- One iteration of `for k in index_list:` (lines 721-784): increment
`viewed` (line 722, before any answer), read the pause input `ans0`
(lines 732-734, quit check), then run the response cycle.  The two
in-place updates to `_cards[k]` (viewed, then tally on the advancing
answer) combine into `set k c'`, where `c'` already carries the viewed
increment.  On a missed answer the very card object is appended to
`missed`, so its final value `c'` is what the list holds. -/
def stepCard (st : Settings) (s : SessionState) (k : Nat) : StepResult :=
  match s.cards[k]? with
  | none => StepResult.stuck
  | some ck =>
    let c1 : Card := { ck with viewed := ck.viewed + 1 }
    match s.inputs with
    | [] => StepResult.stuck
    | ans0 :: rest0 =>
      if quitTok ans0 then StepResult.quit
      else
        match askCard st c1 s.abort rest0 with
        | AskResult.stuck => StepResult.stuck
        | AskResult.quit => StepResult.quit
        | AskResult.advanced c' missedIt mark ab rest =>
          StepResult.cont
            { cards := s.cards.set k c',
              abort := ab,
              unwanted := if mark then s.unwanted ++ [k] else s.unwanted,
              missed := if missedIt then s.missed ++ [c'] else s.missed,
              inputs := rest }

/-- The whole card loop `for k in index_list:`. -/
def runCards (st : Settings) : List Nat → SessionState → StepResult
  | [], s => StepResult.cont s
  | k :: ks, s =>
    match stepCard st s k with
    | StepResult.cont s' => runCards st ks s'
    | StepResult.quit => StepResult.quit
    | StepResult.stuck => StepResult.stuck

/-- Fold of `del _cards[ele]` over a list of indices. -/
def eraseIdxs {α : Type} (cards : List α) (l : List Nat) : List α :=
  l.foldl (fun cs i => cs.eraseIdx i) cards

/-- Lines 788-799: `unwanted = sorted(unwanted)` then
`for ele in unwanted[::-1]: del _cards[ele]` — deletion in descending
index order.  (When `unwanted` is empty the block is skipped, which
deletes nothing, exactly what the fold does.) -/
def removeUnwanted (cards : List Card) (unwanted : List Nat) : List Card :=
  eraseIdxs cards ((List.insertionSort (fun a b => a ≤ b) unwanted).reverse)

/-- The observable outcome of a completed pass: final deck, abort flag,
bookkeeping lists, the reported percentage (`None` when nothing was
missed) and the cards handed to `_save` (`None` when aborted, so the
on-disk file is untouched). -/
structure GoOutcome where
  finalCards : List Card
  abortFlag : Bool
  unwanted : List Nat
  missed : List Card
  percent : Option Int
  saved : Option (List Card)
deriving DecidableEq

/-- End of pass: either the summary completes, or the percentage
computation (line 806-807) divides by zero (`ZeroDivisionError`
propagates out of `go`; in particular nothing is saved). -/
inductive GoFinish where
  | crash
  | done (out : GoOutcome)
deriving DecidableEq

/-- Lines 785-827: remove the marked cards in descending index order,
report the percentage `int(100 * (len(_cards) - len(missed))/len(_cards))`
when at least one card was missed (Python `int()` truncates toward zero,
`Int.tdiv`), and call `_save` unless the abort flag is set. -/
def finishPass (s : SessionState) : GoFinish :=
  let cards' := removeUnwanted s.cards s.unwanted
  if s.missed.isEmpty then
    GoFinish.done
      { finalCards := cards', abortFlag := s.abort, unwanted := s.unwanted,
        missed := s.missed, percent := none,
        saved := if s.abort then none else some cards' }
  else if cards'.length = 0 then GoFinish.crash
  else
    GoFinish.done
      { finalCards := cards', abortFlag := s.abort, unwanted := s.unwanted,
        missed := s.missed,
        percent := some ((100 * ((cards'.length : Int) - (s.missed.length : Int))).tdiv
          (cards'.length : Int)),
        saved := if s.abort then none else some cards' }

/-- Overall result of one `go()` call. -/
inductive GoSessionResult where
  | earlyQuit
  | quitNoSave
  | crash
  | done (out : GoOutcome)
deriving DecidableEq

/-- `go(shuffle)` (lines 645-827) on an already-loaded deck.  The first
input is `ans1` (`"Press any key to start."`, quit-checked at line 698).
`order` stands for `index_list`, the identity permutation over indices,
shuffled when requested.  Line 689 copies `_settings['abort']` into the
local `abort`, but line 714 unconditionally reassigns `abort = False`
before the loop, so the session always starts with the flag off —
which is why `st` is not consulted here. -/
def go (st : Settings) (cards0 : List Card) (order : List Nat) :
    List String → Option GoSessionResult
  | [] => none
  | ans1 :: rest =>
    if quitTok ans1 then some GoSessionResult.earlyQuit
    else
      match runCards st order
          { cards := cards0, abort := false, unwanted := [], missed := [],
            inputs := rest } with
      | StepResult.stuck => none
      | StepResult.quit => some GoSessionResult.quitNoSave
      | StepResult.cont s =>
        match finishPass s with
        | GoFinish.crash => some GoSessionResult.crash
        | GoFinish.done out => some (GoSessionResult.done out)

/-- What a `go` outcome hands to `_save`: `none` means `_save` is never
called and the on-disk file is untouched. -/
def goSaved : GoSessionResult → Option (List Card)
  | GoSessionResult.done out => out.saved
  | _ => none

/-! ## Character and token lemmas -/

/-- `Char.toLower` only moves basic latin capitals, so digits are fixed. -/
lemma digit_toLower (c : Char) (h : c.isDigit = true) : c.toLower = c := by
  simp only [Char.isDigit, Bool.and_eq_true, decide_eq_true_eq] at h
  simp only [Char.toLower]
  rw [if_neg]
  simp only [Char.toNat]
  have h3 : c.val.toNat ≤ 57 := UInt32.toNat_le_of_le (by decide) h.2
  intro hc
  omega

/-- A token that starts with `q`/`Q`/`e`/`E` falls through the earlier
branches of the response classification. -/
lemma quitTok_classify (s : String) (h : quitTok s = true) :
    isNumeric s = false ∧ dashNum s = false ∧ firstIs s 'i' = false := by
  unfold quitTok firstIs at h
  cases hs : s.data with
  | nil => rw [hs] at h; simp at h
  | cons a t =>
    rw [hs] at h
    simp only [Bool.or_eq_true, decide_eq_true_eq] at h
    have hnd : a.isDigit = false := by
      cases had : a.isDigit
      · rfl
      · exfalso
        have hd := digit_toLower a had
        rcases h with h | h <;> rw [hd] at h <;> subst h <;>
          exact absurd had (by decide)
    have hdash : a ≠ '-' := by
      intro ha
      subst ha
      rcases h with h | h <;> exact absurd h (by decide)
    refine ⟨?_, ?_, ?_⟩
    · unfold isNumeric
      rw [hs]
      simp [hnd]
    · unfold dashNum
      rw [hs]
      simp [hdash]
    · unfold firstIs
      rw [hs]
      simp only [decide_eq_false_iff_not]
      rcases h with h | h <;> rw [h] <;> decide

/-- A quit token makes the response cycle return immediately
(line 752-753). -/
lemma askCard_quit_of_quitTok (st : Settings) (c : Card) (ab : Bool)
    (ans : String) (rest : List String) (h : quitTok ans = true) :
    askCard st c ab (ans :: rest) = AskResult.quit := by
  obtain ⟨h1, h2, h3⟩ := quitTok_classify ans h
  simp [askCard, h1, h2, h3, h]

/-- Elimination principle for an advancing answer: the card keeps its
identity fields; a missed (`n`) answer sets the tally to
`max 0 (maxtally - tallypenalty)` and never marks; a correct answer
increments the tally and marks exactly when the new tally reached
`maxtally`. -/
lemma askCard_advanced_spec (st : Settings) (c : Card) :
    ∀ (inputs : List String) (ab : Bool) (c' : Card) (m mk ab' : Bool)
      (rest : List String),
      askCard st c ab inputs = AskResult.advanced c' m mk ab' rest →
      c'.word = c.word ∧ c'.definition = c.definition ∧
      c'.created = c.created ∧ c'.viewed = c.viewed ∧
      ((m = true ∧ mk = false ∧
          c'.tally = max 0 (st.maxtally - st.tallypenalty)) ∨
       (m = false ∧ c'.tally = c.tally + 1 ∧
          (mk = true ↔ st.maxtally ≤ c'.tally))) := by
  intro inputs
  induction inputs with
  | nil => intro ab c' m mk ab' rest h; simp [askCard] at h
  | cons a l ih =>
    intro ab c' m mk ab' rest h
    simp only [askCard] at h
    split at h
    · exact ih ab c' m mk ab' rest h
    · split at h
      · exact ih ab c' m mk ab' rest h
      · split at h
        · exact ih ab c' m mk ab' rest h
        · split at h
          · cases h
          · split at h
            · exact ih true c' m mk ab' rest h
            · split at h
              · exact ih false c' m mk ab' rest h
              · split at h
                · cases h
                  exact ⟨rfl, rfl, rfl, rfl, Or.inl ⟨rfl, rfl, rfl⟩⟩
                · split at h <;>
                  · cases h
                    refine ⟨rfl, rfl, rfl, rfl, Or.inr ⟨rfl, rfl, ?_⟩⟩
                    simp

/-- While no input token starts with `a`, the response cycle leaves a
cleared abort flag cleared, and only consumes inputs from the front. -/
lemma askCard_no_toggle (st : Settings) (c : Card) :
    ∀ (inputs : List String) (c' : Card) (m mk ab' : Bool)
      (rest : List String),
      (∀ a ∈ inputs, firstIs a 'a' = false) →
      askCard st c false inputs = AskResult.advanced c' m mk ab' rest →
      ab' = false ∧ ∀ a ∈ rest, firstIs a 'a' = false := by
  intro inputs
  induction inputs with
  | nil => intro c' m mk ab' rest _ h; simp [askCard] at h
  | cons a l ih =>
    intro c' m mk ab' rest hno h
    have hnoa : firstIs a 'a' = false := hno a (List.mem_cons_self a l)
    have hnol : ∀ x ∈ l, firstIs x 'a' = false :=
      fun x hx => hno x (List.mem_cons_of_mem a hx)
    simp only [askCard, hnoa, Bool.false_and, Bool.false_eq_true,
      if_false] at h
    split at h
    · exact ih c' m mk ab' rest hnol h
    · split at h
      · exact ih c' m mk ab' rest hnol h
      · split at h
        · exact ih c' m mk ab' rest hnol h
        · split at h
          · cases h
          · split at h
            · cases h
              exact ⟨rfl, hnol⟩
            · split at h <;>
              · cases h
                exact ⟨rfl, hnol⟩

/-! ## `stepCard` and `runCards` lemmas -/

/-- Elimination principle for a continuing `stepCard`: what the successor
state is made of. -/
lemma stepCard_cont_spec (st : Settings) (s : SessionState) (k : Nat)
    (s' : SessionState) (h : stepCard st s k = StepResult.cont s') :
    ∃ (ck c' : Card) (missedIt mark : Bool),
      s.cards[k]? = some ck ∧
      s'.cards = s.cards.set k c' ∧
      s'.unwanted = (if mark then s.unwanted ++ [k] else s.unwanted) ∧
      s'.missed = (if missedIt then s.missed ++ [c'] else s.missed) ∧
      c'.word = ck.word ∧
      ¬(missedIt = true ∧ mark = true) ∧
      (0 ≤ ck.tally → 0 ≤ c'.tally) := by
  obtain ⟨ck, hget⟩ : ∃ ck, s.cards[k]? = some ck := by
    cases hg : s.cards[k]? with
    | none => unfold stepCard at h; rw [hg] at h; cases h
    | some ck => exact ⟨ck, rfl⟩
  obtain ⟨ans0, rest0, hin⟩ : ∃ a r, s.inputs = a :: r := by
    cases hi : s.inputs with
    | nil => unfold stepCard at h; rw [hget, hi] at h; cases h
    | cons a r => exact ⟨a, r, rfl⟩
  unfold stepCard at h
  rw [hget, hin] at h
  simp only at h
  split at h
  · cases h
  · cases hask : askCard st { ck with viewed := ck.viewed + 1 }
        s.abort rest0 with
    | stuck => rw [hask] at h; cases h
    | quit => rw [hask] at h; cases h
    | advanced c' missedIt mark ab rest =>
      rw [hask] at h
      cases h
      obtain ⟨hw, _, _, _, hd⟩ :=
        askCard_advanced_spec st { ck with viewed := ck.viewed + 1 }
          rest0 s.abort c' missedIt mark ab rest hask
      refine ⟨ck, c', missedIt, mark, hget, rfl, rfl, rfl, hw, ?_, ?_⟩
      · rcases hd with ⟨_, hmk, _⟩ | ⟨hm, _, _⟩
        · rintro ⟨_, h2⟩
          rw [hmk] at h2
          cases h2
        · rintro ⟨h1, _⟩
          rw [hm] at h1
          cases h1
      · intro hck
        rcases hd with ⟨_, _, ht⟩ | ⟨_, ht, _⟩
        · rw [ht]
          exact le_max_left 0 _
        · rw [ht]
          simp only [Card.tally] at hck ⊢
          omega

/-- A step continues only on an in-range index. -/
lemma stepCard_cont_lt (st : Settings) (s : SessionState) (k : Nat)
    (s' : SessionState) (h : stepCard st s k = StepResult.cont s') :
    k < s.cards.length := by
  obtain ⟨ck, _, _, _, hget, _⟩ := stepCard_cont_spec st s k s' h
  exact (List.getElem?_eq_some_iff.mp hget).1

/-- Splitting the card loop at an append. -/
lemma runCards_append (st : Settings) (l1 l2 : List Nat) (s : SessionState) :
    runCards st (l1 ++ l2) s =
      match runCards st l1 s with
      | StepResult.cont s' => runCards st l2 s'
      | StepResult.quit => StepResult.quit
      | StepResult.stuck => StepResult.stuck := by
  induction l1 generalizing s with
  | nil => simp [runCards]
  | cons k ks ih =>
    simp only [List.cons_append, runCards]
    cases stepCard st s k <;> simp [ih]

/-- Setting an index to the value it already holds is the identity. -/
lemma set_getElem_self {α : Type} :
    ∀ (l : List α) (k : Nat) (a : α), l[k]? = some a → l.set k a = l := by
  intro l
  induction l with
  | nil => intro k a h; cases h
  | cons x xs ih =>
    intro k a h
    cases k with
    | zero =>
      simp only [List.getElem?_cons_zero, Option.some.injEq] at h
      simp [h]
    | succ n =>
      simp only [List.getElem?_cons_succ] at h
      simp [List.set_cons_succ, ih n a h]

/-- A continuing step preserves the word list (only `viewed`/`tally`
change). -/
lemma stepCard_words (st : Settings) (s : SessionState) (k : Nat)
    (s' : SessionState) (h : stepCard st s k = StepResult.cont s') :
    s'.cards.map Card.word = s.cards.map Card.word := by
  obtain ⟨ck, c', _, _, hget, hcards, _, _, hw, _, _⟩ :=
    stepCard_cont_spec st s k s' h
  rw [hcards, List.map_set]
  rw [hw]
  apply set_getElem_self
  rw [List.getElem?_map, hget]
  rfl

/-- Invariants of the card loop: deck length and words are preserved,
`unwanted` only grows (by indices of the traversal order), cards at
indices outside the order are untouched, and each card adds at most one
entry to `missed`/`unwanted` combined. -/
lemma runCards_cont_inv (st : Settings) :
    ∀ (order : List Nat) (s s' : SessionState),
      runCards st order s = StepResult.cont s' →
      s'.cards.length = s.cards.length ∧
      s'.cards.map Card.word = s.cards.map Card.word ∧
      (∃ tail, s'.unwanted = s.unwanted ++ tail ∧ ∀ j ∈ tail, j ∈ order) ∧
      (∀ j, j ∉ order → s'.cards[j]? = s.cards[j]?) ∧
      s'.missed.length + s'.unwanted.length ≤
        s.missed.length + s.unwanted.length + order.length := by
  intro order
  induction order with
  | nil =>
    intro s s' h
    cases h
    exact ⟨rfl, rfl, ⟨[], by simp, by simp⟩, fun j _ => rfl, by omega⟩
  | cons k ks ih =>
    intro s s' h
    simp only [runCards] at h
    cases hstep : stepCard st s k with
    | quit => rw [hstep] at h; cases h
    | stuck => rw [hstep] at h; cases h
    | cont s1 =>
      rw [hstep] at h
      obtain ⟨hlen, hwords, ⟨tail, htail, htailmem⟩, hget, hcount⟩ :=
        ih s1 s' h
      obtain ⟨ck, c', missedIt, mark, hget1, hcards1, hunw1, hmis1, hw1,
        hnb1, _⟩ := stepCard_cont_spec st s k s1 hstep
      have hw : s1.cards.map Card.word = s.cards.map Card.word :=
        stepCard_words st s k s1 hstep
      have hlen1 : s1.cards.length = s.cards.length := by
        rw [hcards1, List.length_set]
      refine ⟨hlen.trans hlen1, hwords.trans hw, ?_, ?_, ?_⟩
      · refine ⟨(if mark then [k] else []) ++ tail, ?_, ?_⟩
        · rw [htail, hunw1]
          cases mark <;> simp
        · intro j hj
          rcases List.mem_append.mp hj with hj | hj
          · cases mark with
            | true =>
              simp only [if_true] at hj
              rw [List.mem_singleton.mp hj]
              exact List.mem_cons_self k ks
            | false => simp at hj
          · exact List.mem_cons_of_mem k (htailmem j hj)
      · intro j hj
        have hjk : j ≠ k := fun he => hj (he ▸ List.mem_cons_self k ks)
        have hjks : j ∉ ks := fun hm => hj (List.mem_cons_of_mem k hm)
        rw [hget j hjks, hcards1, List.getElem?_set_ne (fun he => hjk he.symm)]
      · have h1 : s1.missed.length + s1.unwanted.length ≤
            s.missed.length + s.unwanted.length + 1 := by
          rw [hunw1, hmis1]
          cases missedIt with
          | true =>
            have hmf : mark = false := by
              cases mark
              · rfl
              · exact absurd ⟨rfl, rfl⟩ hnb1
            subst hmf
            simp only [if_true, Bool.false_eq_true, if_false,
              List.length_append, List.length_cons, List.length_nil]
            omega
          | false =>
            cases mark with
            | true =>
              simp only [if_true, Bool.false_eq_true, if_false,
                List.length_append, List.length_cons, List.length_nil]
              omega
            | false =>
              simp only [Bool.false_eq_true, if_false]
              omega
        simp only [List.length_cons]
        omega

/-- With a duplicate-free, in-range traversal order disjoint from the
accumulated marks, the marks stay duplicate-free and in range. -/
lemma runCards_unwanted_nodup (st : Settings) :
    ∀ (order : List Nat) (s s' : SessionState),
      runCards st order s = StepResult.cont s' →
      order.Nodup → (∀ i ∈ order, i < s.cards.length) →
      s.unwanted.Nodup →
      (∀ j ∈ s.unwanted, j < s.cards.length ∧ j ∉ order) →
      s'.unwanted.Nodup ∧ ∀ j ∈ s'.unwanted, j < s'.cards.length := by
  intro order
  induction order with
  | nil =>
    intro s s' h hnd hb hund hu
    cases h
    exact ⟨hund, fun j hj => (hu j hj).1⟩
  | cons k ks ih =>
    intro s s' h hnd hb hund hu
    simp only [runCards] at h
    cases hstep : stepCard st s k with
    | quit => rw [hstep] at h; cases h
    | stuck => rw [hstep] at h; cases h
    | cont s1 =>
      rw [hstep] at h
      obtain ⟨ck, c', missedIt, mark, hget1, hcards1, hunw1, hmis1, _, _,
        _⟩ := stepCard_cont_spec st s k s1 hstep
      have hlen1 : s1.cards.length = s.cards.length := by
        rw [hcards1, List.length_set]
      have hkl : k < s.cards.length := stepCard_cont_lt st s k s1 hstep
      have hknotks : k ∉ ks := (List.nodup_cons.mp hnd).1
      have hndks : ks.Nodup := (List.nodup_cons.mp hnd).2
      apply ih s1 s' h hndks
      · intro i hi
        rw [hlen1]
        exact hb i (List.mem_cons_of_mem k hi)
      · rw [hunw1]
        cases mark with
        | true =>
          simp only [if_true]
          rw [List.nodup_append]
          refine ⟨hund, List.nodup_singleton k, ?_⟩
          intro j hj hjk
          rw [List.mem_singleton.mp hjk] at hj
          exact (hu k hj).2 (List.mem_cons_self k ks)
        | false => exact hund
      · intro j hj
        rw [hunw1] at hj
        have hj' : j ∈ s.unwanted ∨ j = k := by
          cases mark with
          | true =>
            simp only [if_true] at hj
            rcases List.mem_append.mp hj with hj | hj
            · exact Or.inl hj
            · exact Or.inr (List.mem_singleton.mp hj)
          | false => exact Or.inl hj
        rcases hj' with hj' | hj'
        · refine ⟨by rw [hlen1]; exact (hu j hj').1, ?_⟩
          intro hm
          exact (hu j hj').2 (List.mem_cons_of_mem k hm)
        · subst hj'
          exact ⟨by rw [hlen1]; exact hkl, hknotks⟩

/-! ## Deletion in descending index order -/

/-- Erasing a batch of indices yields a sublist. -/
lemma eraseIdxs_sublist {α : Type} :
    ∀ (l : List Nat) (cards : List α), (eraseIdxs cards l).Sublist cards := by
  intro l
  induction l with
  | nil => intro cards; exact List.Sublist.refl cards
  | cons i t ih =>
    intro cards
    exact (ih (cards.eraseIdx i)).trans (List.eraseIdx_sublist cards i)

/-- Erasing strictly descending in-range indices removes exactly that
many elements. -/
lemma eraseIdxs_length {α : Type} :
    ∀ (l : List Nat) (cards : List α),
      List.Pairwise (fun a b => b < a) l → (∀ i ∈ l, i < cards.length) →
      (eraseIdxs cards l).length = cards.length - l.length := by
  intro l
  induction l with
  | nil => intro cards _ _; simp [eraseIdxs]
  | cons i t ih =>
    intro cards hp hb
    have hi : i < cards.length := hb i (List.mem_cons_self i t)
    have hlen : (cards.eraseIdx i).length = cards.length - 1 := by
      rw [List.length_eraseIdx, if_pos hi]
    have hb' : ∀ j ∈ t, j < (cards.eraseIdx i).length := by
      intro j hj
      have hji : j < i := (List.pairwise_cons.mp hp).1 j hj
      omega
    have := ih (cards.eraseIdx i) (List.pairwise_cons.mp hp).2 hb'
    show (eraseIdxs (cards.eraseIdx i) t).length = _
    rw [this, hlen, List.length_cons]
    omega

/-- In a duplicate-free list, the element at an erased index is gone. -/
lemma not_mem_eraseIdx_self {α : Type} :
    ∀ (ws : List α) (i : Nat) (w : α),
      ws.Nodup → ws[i]? = some w → w ∉ ws.eraseIdx i := by
  intro ws
  induction ws with
  | nil => intro i w _ h; cases h
  | cons c t ih =>
    intro i w hnd h
    cases i with
    | zero =>
      simp only [List.getElem?_cons_zero, Option.some.injEq] at h
      subst h
      simp only [List.eraseIdx_cons_zero]
      exact (List.nodup_cons.mp hnd).1
    | succ n =>
      simp only [List.getElem?_cons_succ] at h
      simp only [List.eraseIdx_cons_succ, List.mem_cons]
      rintro (he | hm)
      · subst he
        have : w ∈ t := by
          obtain ⟨hlt, hget⟩ := List.getElem?_eq_some_iff.mp h
          exact hget ▸ List.getElem_mem hlt
        exact (List.nodup_cons.mp hnd).1 this
      · exact ih n w (List.nodup_cons.mp hnd).2 h hm

/-- Erasing a strictly descending batch of in-range indices of a
duplicate-free list removes the element at each erased index. -/
lemma not_mem_eraseIdxs {α : Type} :
    ∀ (l : List Nat) (ws : List α) (k : Nat) (w : α),
      List.Pairwise (fun a b => b < a) l → (∀ i ∈ l, i < ws.length) →
      ws.Nodup → k ∈ l → ws[k]? = some w → w ∉ eraseIdxs ws l := by
  intro l
  induction l with
  | nil => intro ws k w _ _ _ hk _; cases hk
  | cons i t ih =>
    intro ws k w hp hb hnd hk hget
    have hi : i < ws.length := hb i (List.mem_cons_self i t)
    rcases List.mem_cons.mp hk with hk | hk
    · subst hk
      intro hmem
      have hsub : (eraseIdxs (ws.eraseIdx k) t).Sublist (ws.eraseIdx k) :=
        eraseIdxs_sublist t (ws.eraseIdx k)
      exact not_mem_eraseIdx_self ws k w hnd hget (hsub.subset hmem)
    · have hki : k < i := (List.pairwise_cons.mp hp).1 k hk
      have hget' : (ws.eraseIdx i)[k]? = some w := by
        rw [List.getElem?_eraseIdx, if_pos hki]
        exact hget
      have hb' : ∀ j ∈ t, j < (ws.eraseIdx i).length := by
        intro j hj
        have hji : j < i := (List.pairwise_cons.mp hp).1 j hj
        rw [List.length_eraseIdx, if_pos hi]
        omega
      exact ih (ws.eraseIdx i) k w (List.pairwise_cons.mp hp).2 hb'
        ((List.eraseIdx_sublist ws i).nodup hnd) hk hget'

/-- Single deletion commutes with `map`. -/
lemma eraseIdx_map {α β : Type} (f : α → β) :
    ∀ (ws : List α) (i : Nat),
      (ws.map f).eraseIdx i = (ws.eraseIdx i).map f := by
  intro ws
  induction ws with
  | nil => intro i; cases i <;> rfl
  | cons a t ih =>
    intro i
    cases i with
    | zero => rfl
    | succ n => simp only [List.map_cons, List.eraseIdx_cons_succ, ih n]

/-- Batch deletion commutes with `map`. -/
lemma eraseIdxs_map {α β : Type} (f : α → β) :
    ∀ (l : List Nat) (ws : List α),
      eraseIdxs (ws.map f) l = (eraseIdxs ws l).map f := by
  intro l
  induction l with
  | nil => intro ws; rfl
  | cons i t ih =>
    intro ws
    show eraseIdxs ((ws.map f).eraseIdx i) t = _
    rw [eraseIdx_map, ih]
    rfl

/-- The reversed sorted copy of a duplicate-free index list is strictly
descending, has the same length and the same members. -/
lemma descList_spec (unwanted : List Nat) (hnd : unwanted.Nodup) :
    List.Pairwise (fun a b => b < a)
      ((List.insertionSort (fun a b => a ≤ b) unwanted).reverse) ∧
    ((List.insertionSort (fun a b => a ≤ b) unwanted).reverse).length =
      unwanted.length ∧
    ∀ j, (j ∈ (List.insertionSort (fun a b => a ≤ b) unwanted).reverse ↔
      j ∈ unwanted) := by
  have hperm := List.perm_insertionSort (fun a b => a ≤ b) unwanted
  have hsortnd : (List.insertionSort (fun a b => a ≤ b) unwanted).Nodup :=
    hperm.symm.nodup hnd
  have hsorted : List.Sorted (fun a b => a ≤ b)
      (List.insertionSort (fun a b => a ≤ b) unwanted) :=
    List.sorted_insertionSort (fun a b => a ≤ b) unwanted
  have hlt := hsorted.lt_of_le hsortnd
  refine ⟨List.pairwise_reverse.mpr hlt, ?_, ?_⟩
  · rw [List.length_reverse]
    exact hperm.length_eq
  · intro j
    rw [List.mem_reverse]
    exact hperm.mem_iff

/-- `removeUnwanted` removes exactly one card per (distinct, in-range)
marked index. -/
lemma removeUnwanted_length (cards : List Card) (unwanted : List Nat)
    (hnd : unwanted.Nodup) (hb : ∀ j ∈ unwanted, j < cards.length) :
    (removeUnwanted cards unwanted).length =
      cards.length - unwanted.length := by
  obtain ⟨hp, hlen, hmem⟩ := descList_spec unwanted hnd
  unfold removeUnwanted
  rw [eraseIdxs_length _ cards hp (fun i hi => hb i ((hmem i).mp hi)), hlen]

/-- When the words of the deck are pairwise distinct, the word of a card
at a marked index does not survive `removeUnwanted`. -/
lemma removeUnwanted_word_absent (cards : List Card) (unwanted : List Nat)
    (k : Nat) (w : String)
    (hnd : unwanted.Nodup) (hb : ∀ j ∈ unwanted, j < cards.length)
    (hwnd : (cards.map Card.word).Nodup)
    (hk : k ∈ unwanted) (hget : (cards.map Card.word)[k]? = some w) :
    w ∉ (removeUnwanted cards unwanted).map Card.word := by
  obtain ⟨hp, _, hmem⟩ := descList_spec unwanted hnd
  unfold removeUnwanted
  rw [← eraseIdxs_map]
  apply not_mem_eraseIdxs _ _ k w hp _ hwnd ((hmem k).mpr hk) hget
  intro i hi
  rw [List.length_map]
  exact hb i ((hmem i).mp hi)

/-- Summary facts about a completed pass started from the fresh session
state `go` builds: deck length and words preserved, marked indices
distinct and in range, at most one mark-or-miss per visited card, and
the post-removal deck large enough to hold every missed card. -/
lemma runCards_full (st : Settings) (cards0 : List Card) (order : List Nat)
    (inputs : List String) (s : SessionState)
    (hrun : runCards st order
      { cards := cards0, abort := false, unwanted := [], missed := [],
        inputs := inputs } = StepResult.cont s)
    (hnd : order.Nodup) (hb : ∀ i ∈ order, i < cards0.length) :
    s.cards.length = cards0.length ∧
    s.cards.map Card.word = cards0.map Card.word ∧
    s.unwanted.Nodup ∧ (∀ j ∈ s.unwanted, j < s.cards.length) ∧
    s.missed.length + s.unwanted.length ≤ order.length ∧
    (removeUnwanted s.cards s.unwanted).length =
      cards0.length - s.unwanted.length ∧
    (s.missed ≠ [] →
      s.missed.length ≤ (removeUnwanted s.cards s.unwanted).length ∧
      0 < (removeUnwanted s.cards s.unwanted).length) := by
  obtain ⟨hlen, hwords, _, _, hcount⟩ :=
    runCards_cont_inv st order _ s hrun
  obtain ⟨hund, hub⟩ :=
    runCards_unwanted_nodup st order _ s hrun hnd hb List.nodup_nil
      (by intro j hj; cases hj)
  simp only [List.length_nil] at hcount
  have horder : order.length ≤ cards0.length := by
    have hsub : order.Subperm (List.range cards0.length) :=
      hnd.subperm (fun i hi => List.mem_range.mpr (hb i hi))
    have := hsub.length_le
    rwa [List.length_range] at this
  have hrem : (removeUnwanted s.cards s.unwanted).length =
      cards0.length - s.unwanted.length := by
    rw [removeUnwanted_length s.cards s.unwanted hund hub, hlen]
  refine ⟨hlen, hwords, hund, hub, by omega, hrem, ?_⟩
  intro hm
  have hm1 : 0 < s.missed.length := List.length_pos.mpr hm
  constructor <;> omega

/-- Unfolding `go` on a completed, summarised pass. -/
lemma go_done (st : Settings) (cards0 : List Card) (order : List Nat)
    (ans1 : String) (inputs : List String) (s : SessionState)
    (out : GoOutcome)
    (h1 : quitTok ans1 = false)
    (h2 : runCards st order
      { cards := cards0, abort := false, unwanted := [], missed := [],
        inputs := inputs } = StepResult.cont s)
    (h3 : finishPass s = GoFinish.done out) :
    go st cards0 order (ans1 :: inputs) =
      some (GoSessionResult.done out) := by
  simp only [go, h1, Bool.false_eq_true, if_false, h2, h3]

/-- `finishPass` when nothing was missed. -/
lemma finishPass_no_missed (s : SessionState) (h : s.missed = []) :
    finishPass s = GoFinish.done
      { finalCards := removeUnwanted s.cards s.unwanted,
        abortFlag := s.abort, unwanted := s.unwanted, missed := s.missed,
        percent := none,
        saved := if s.abort then none
          else some (removeUnwanted s.cards s.unwanted) } := by
  simp only [finishPass, h, List.isEmpty_nil, if_true]

/-- `finishPass` when something was missed and the post-removal deck is
nonempty. -/
lemma finishPass_missed (s : SessionState) (h : s.missed ≠ [])
    (h2 : (removeUnwanted s.cards s.unwanted).length ≠ 0) :
    finishPass s = GoFinish.done
      { finalCards := removeUnwanted s.cards s.unwanted,
        abortFlag := s.abort, unwanted := s.unwanted, missed := s.missed,
        percent := some ((100 *
          (((removeUnwanted s.cards s.unwanted).length : Int) -
            (s.missed.length : Int))).tdiv
          ((removeUnwanted s.cards s.unwanted).length : Int)),
        saved := if s.abort then none
          else some (removeUnwanted s.cards s.unwanted) } := by
  have hne : s.missed.isEmpty = false := by
    cases hm : s.missed with
    | nil => exact absurd hm h
    | cons a t => rfl
  simp only [finishPass, hne, Bool.false_eq_true, if_false, h2]

/-! ## Store lemmas -/

/-- Reaching a one-field row (all earlier rows have at least two fields)
exits the program, whatever was accumulated. -/
lemma rowLoop_halt (vd : String → Bool) (today : String) :
    ∀ (pre : List Row) (acc : List Card) (r : Row) (post : List Row),
      r.length = 1 → (∀ q ∈ pre, 2 ≤ q.length) →
      rowLoop vd today (pre ++ r :: post) acc = OpenOutcome.halt := by
  intro pre
  induction pre with
  | nil =>
    intro acc r post hr _
    simp only [List.nil_append, rowLoop, hr, if_true]
  | cons q pre' ih =>
    intro acc r post hr hpre
    have hq : 2 ≤ q.length := hpre q (List.mem_cons_self q pre')
    have h1 : ¬(q.length = 1) := by omega
    have h0 : ¬(q.length = 0) := by omega
    have hpre' : ∀ p ∈ pre', 2 ≤ p.length :=
      fun p hp => hpre p (List.mem_cons_of_mem q hp)
    simp only [List.cons_append, rowLoop, h1, if_false, h0]
    split <;> split
    · exact ih acc r post hr hpre'
    · exact ih _ r post hr hpre'
    · exact ih acc r post hr hpre'
    · exact ih _ r post hr hpre'

/-- Field coercion yields non-negative values. -/
lemma parseCount_nonneg (s : String) : 0 ≤ parseCount s := by
  unfold parseCount
  split
  · exact Int.ofNat_nonneg _
  · exact le_refl 0

/-- The tally field a row yields. -/
lemma rowCard_tally (vd : String → Bool) (today : String) (r : Row) :
    (rowCard vd today r).tally = parseCount (r.getD 4 "") := rfl

/-- Every card produced by the row loop has a non-negative tally. -/
lemma rowLoop_tally_nonneg (vd : String → Bool) (today : String) :
    ∀ (rows : List Row) (acc cs : List Card),
      rowLoop vd today rows acc = OpenOutcome.returns cs →
      (∀ c ∈ acc, 0 ≤ c.tally) → ∀ c ∈ cs, 0 ≤ c.tally := by
  intro rows
  induction rows with
  | nil =>
    intro acc cs h hacc
    cases h
    exact hacc
  | cons r rs ih =>
    intro acc cs h hacc
    simp only [rowLoop] at h
    split at h
    · cases h
    · split at h
      · cases h
        exact hacc
      · split at h <;> split at h <;>
        first
        | exact ih _ cs h hacc
        | · apply ih _ cs h
            intro c hc
            rcases List.mem_append.mp hc with hc | hc
            · exact hacc c hc
            · rw [List.mem_singleton.mp hc, rowCard_tally]
              exact parseCount_nonneg _

/-- The upsert loop of `add` on a deck split around the first matching
card: the match is removed and the replacement appended at the end. -/
lemma addLoop_found (w d : String) :
    ∀ (A B : List Card) (x : Card),
      (∀ y ∈ A, normalize y.word ≠ normalize w) →
      normalize x.word = normalize w →
      addLoop w d (A ++ x :: B) =
        some (A ++ B ++ [{ word := w, definition := d, created := x.created,
                           viewed := x.viewed, tally := x.tally }]) := by
  intro A
  induction A with
  | nil =>
    intro B x _ hx
    simp only [List.nil_append, addLoop, hx, if_true]
  | cons a A' ih =>
    intro B x hA hx
    have ha : normalize a.word ≠ normalize w :=
      hA a (List.mem_cons_self a A')
    have hA' : ∀ y ∈ A', normalize y.word ≠ normalize w :=
      fun y hy => hA y (List.mem_cons_of_mem a hy)
    simp only [List.cons_append, addLoop, ha, if_false, List.append_eq]
    rw [ih B x hA' hx]
    simp [List.append_assoc]

/-- What a finished pass saves: everything, unless the abort flag is
set. -/
lemma finishPass_saved (s : SessionState) (out : GoOutcome)
    (h : finishPass s = GoFinish.done out) :
    out.saved = (if s.abort then none else some out.finalCards) := by
  cases hm : s.missed with
  | nil =>
    rw [finishPass_no_missed s hm] at h
    cases h
    rfl
  | cons a t =>
    have hm' : s.missed ≠ [] := by rw [hm]; intro he; cases he
    by_cases h0 : (removeUnwanted s.cards s.unwanted).length = 0
    · exfalso
      have hne : s.missed.isEmpty = false := by rw [hm]; rfl
      unfold finishPass at h
      rw [hne] at h
      simp only [Bool.false_eq_true, if_false, h0, if_pos] at h
      cases h
    · rw [finishPass_missed s hm' h0] at h
      cases h
      rfl

/-- An abort-toggle-free step keeps the abort flag cleared. -/
lemma stepCard_abort_false (st : Settings) (s : SessionState) (k : Nat)
    (s' : SessionState) (h : stepCard st s k = StepResult.cont s')
    (hab : s.abort = false)
    (hno : ∀ a ∈ s.inputs, firstIs a 'a' = false) :
    s'.abort = false ∧ ∀ a ∈ s'.inputs, firstIs a 'a' = false := by
  obtain ⟨ck, hget⟩ : ∃ ck, s.cards[k]? = some ck := by
    cases hg : s.cards[k]? with
    | none => unfold stepCard at h; rw [hg] at h; cases h
    | some ck => exact ⟨ck, rfl⟩
  obtain ⟨ans0, rest0, hin⟩ : ∃ a r, s.inputs = a :: r := by
    cases hi : s.inputs with
    | nil => unfold stepCard at h; rw [hget, hi] at h; cases h
    | cons a r => exact ⟨a, r, rfl⟩
  have hno0 : ∀ a ∈ rest0, firstIs a 'a' = false := by
    intro a ha
    exact hno a (hin ▸ List.mem_cons_of_mem ans0 ha)
  unfold stepCard at h
  rw [hget, hin] at h
  simp only at h
  split at h
  · cases h
  · cases hask : askCard st { ck with viewed := ck.viewed + 1 }
        s.abort rest0 with
    | stuck => rw [hask] at h; cases h
    | quit => rw [hask] at h; cases h
    | advanced c' missedIt mark ab rest =>
      rw [hask] at h
      cases h
      rw [hab] at hask
      obtain ⟨habf, hrest⟩ :=
        askCard_no_toggle st { ck with viewed := ck.viewed + 1 } rest0
          c' missedIt mark ab rest hno0 hask
      exact ⟨habf, hrest⟩

/-- An abort-toggle-free pass keeps the abort flag cleared. -/
lemma runCards_abort_false (st : Settings) :
    ∀ (order : List Nat) (s s' : SessionState),
      runCards st order s = StepResult.cont s' →
      s.abort = false → (∀ a ∈ s.inputs, firstIs a 'a' = false) →
      s'.abort = false := by
  intro order
  induction order with
  | nil =>
    intro s s' h hab _
    cases h
    exact hab
  | cons k ks ih =>
    intro s s' h hab hno
    simp only [runCards] at h
    cases hstep : stepCard st s k with
    | quit => rw [hstep] at h; cases h
    | stuck => rw [hstep] at h; cases h
    | cont s1 =>
      rw [hstep] at h
      obtain ⟨hab1, hno1⟩ := stepCard_abort_false st s k s1 hstep hab hno
      exact ih s1 s' h hab1 hno1

/-! ## The claims -/

/-- C7: every failure to open/read the card file is caught inside
`_open`, reported, and an empty list is returned; no exception reaches
the caller (the result is `returns`, not a propagating error). -/
theorem C7_open_failure_returns_empty (vd : String → Bool) (today : String) :
    openCards vd today none = OpenOutcome.returns [] := rfl

/-- C6: a row with exactly one field halts the whole program: `_open`
reaches `sys.exit()`, whose `SystemExit` is not an `Exception` and so is
not suppressed by `_open`'s handler; no partial data is returned. -/
theorem C6_single_field_halts (vd : String → Bool) (today : String)
    (pre post : List Row) (r : Row)
    (h1 : r.length = 1) (h2 : ∀ q ∈ pre, 2 ≤ q.length) :
    openCards vd today (some (pre ++ r :: post)) = OpenOutcome.halt := by
  unfold openCards
  exact rowLoop_halt vd today pre [] r post h1 h2

theorem C6_witness :
    openCards (fun _ => true) "T" (some [["a", "b", "T", "0", "0"], ["solo"]]) =
      OpenOutcome.halt := by
  have h := C6_single_field_halts (fun _ => true) "T"
    [["a", "b", "T", "0", "0"]] [] ["solo"] (by decide) (by decide)
  exact h

/-- C3 (code bug): on an incorrect answer the program sets the tally to
`max(0, maxtally - tallypenalty)`, not `max(0, tally - tallypenalty)`.
With `maxtally = 10`, `tallypenalty = 3` and a prior tally of `8` the
new tally is `7`, while the claim (and the program's own
`_settallypenalty` docstring, lines 128-129, which promises `5` for this
very input) requires `max(0, 8 - 3) = 5`. -/
theorem C3_eval_penalty :
    askCard { maxtally := 10, tallypenalty := 3, abort := false }
        { word := "w", definition := "d", created := "T", viewed := 1,
          tally := 8 } false ["n"] =
      AskResult.advanced
        { word := "w", definition := "d", created := "T", viewed := 1,
          tally := 7 } true false false [] ∧
    ¬((7 : Int) = max 0 ((8 : Int) - 3)) := by
  constructor
  · decide
  · decide

/-- C5 (counterexample): loading does not clamp the tally at `maxtally`:
a stored tally of `15` survives loading unchanged even when
`maxtally = 10`, so `tally ∈ [0, maxtally]` is not an invariant. -/
theorem C5_counterexample :
    ¬(∀ (st : Settings) (vd : String → Bool) (today : String)
        (file : Option (List Row)) (cs : List Card),
        openCards vd today file = OpenOutcome.returns cs →
        ∀ c ∈ cs, 0 ≤ c.tally ∧ c.tally ≤ st.maxtally) := by
  intro h
  have h2 := h ⟨10, 10, false⟩ (fun _ => true) "T"
    (some [["w", "d", "T", "0", "15"]])
    [(⟨"w", "d", "T", 0, 15⟩ : Card)] (by decide)
  have h3 := h2 (⟨"w", "d", "T", 0, 15⟩ : Card) (by decide)
  exact absurd h3.2 (by decide)

/-- C5 (amended): the lower bound holds and is preserved — every loaded
card has tally `≥ 0`, the session keeps all tallies `≥ 0` — and a
correct answer marks the card for end-of-pass removal exactly when the
new tally reached `maxtally`.  The upper bound `tally ≤ maxtally` is not
established by loading (see the counterexample). -/
theorem C5_amended_nonneg_and_marking :
    (∀ (vd : String → Bool) (today : String) (file : Option (List Row))
       (cs : List Card),
       openCards vd today file = OpenOutcome.returns cs →
       ∀ c ∈ cs, 0 ≤ c.tally) ∧
    (∀ (st : Settings) (order : List Nat) (s s' : SessionState),
       runCards st order s = StepResult.cont s' →
       (∀ c ∈ s.cards, 0 ≤ c.tally) → ∀ c ∈ s'.cards, 0 ≤ c.tally) ∧
    (∀ (st : Settings) (c : Card) (ab : Bool) (inputs : List String)
       (c' : Card) (mk ab' : Bool) (rest : List String),
       askCard st c ab inputs = AskResult.advanced c' false mk ab' rest →
       (mk = true ↔ st.maxtally ≤ c'.tally)) := by
  refine ⟨?_, ?_, ?_⟩
  · intro vd today file cs h c hc
    cases file with
    | none =>
      cases h
      cases hc
    | some rows =>
      exact rowLoop_tally_nonneg vd today rows [] cs h
        (by intro x hx; cases hx) c hc
  · intro st order
    induction order with
    | nil =>
      intro s s' h hpos
      cases h
      exact hpos
    | cons k ks ih =>
      intro s s' h hpos
      simp only [runCards] at h
      cases hstep : stepCard st s k with
      | quit => rw [hstep] at h; cases h
      | stuck => rw [hstep] at h; cases h
      | cont s1 =>
        rw [hstep] at h
        apply ih s1 s' h
        obtain ⟨ck, c', missedIt, mark, hget, hcards, _, _, _, _, hpos'⟩ :=
          stepCard_cont_spec st s k s1 hstep
        intro c hc
        rw [hcards] at hc
        rcases List.mem_or_eq_of_mem_set hc with hc | hc
        · exact hpos c hc
        · subst hc
          apply hpos'
          apply hpos
          obtain ⟨hlt, hgete⟩ := List.getElem?_eq_some_iff.mp hget
          exact hgete ▸ List.getElem_mem hlt
  · intro st c ab inputs c' mk ab' rest h
    obtain ⟨_, _, _, _, hd⟩ :=
      askCard_advanced_spec st c inputs ab c' false mk ab' rest h
    rcases hd with ⟨hf, _, _⟩ | ⟨_, _, hiff⟩
    · cases hf
    · exact hiff

theorem C5_witness :
    (∀ c ∈ [(⟨"w", "d", "T", 0, 15⟩ : Card)], 0 ≤ c.tally) ∧
    ((true : Bool) = true ↔
      (⟨1, 1, false⟩ : Settings).maxtally ≤ (⟨"w", "d", "T", 1, 1⟩ : Card).tally) := by
  constructor
  · exact C5_amended_nonneg_and_marking.1 (fun _ => true) "T"
      (some [["w", "d", "T", "0", "15"]]) _ (by decide)
  · exact C5_amended_nonneg_and_marking.2.2 ⟨1, 1, false⟩
      (⟨"w", "d", "T", 1, 0⟩ : Card) false [""]
      (⟨"w", "d", "T", 1, 1⟩ : Card) true false [] (by decide)

/-- C2: an incorrect answer (token starting with `n`/`N`) sets the tally
to `max(0, maxtally - tallypenalty)` regardless of the prior tally, and
appends the card to `missed`. -/
theorem C2_incorrect_response (st : Settings) (s : SessionState) (k : Nat)
    (ck c' : Card) (ans0 : String) (rest0 rest : List String) (mk ab : Bool)
    (hget : s.cards[k]? = some ck)
    (hin : s.inputs = ans0 :: rest0)
    (hq : quitTok ans0 = false)
    (hask : askCard st { ck with viewed := ck.viewed + 1 } s.abort rest0 =
      AskResult.advanced c' true mk ab rest) :
    c'.tally = max 0 (st.maxtally - st.tallypenalty) ∧
    stepCard st s k = StepResult.cont
      { cards := s.cards.set k c', abort := ab, unwanted := s.unwanted,
        missed := s.missed ++ [c'], inputs := rest } := by
  obtain ⟨_, _, _, _, hd⟩ :=
    askCard_advanced_spec st { ck with viewed := ck.viewed + 1 } rest0
      s.abort c' true mk ab rest hask
  have hmk : mk = false ∧ c'.tally = max 0 (st.maxtally - st.tallypenalty) := by
    rcases hd with ⟨_, h1, h2⟩ | ⟨h1, _, _⟩
    · exact ⟨h1, h2⟩
    · cases h1
  refine ⟨hmk.2, ?_⟩
  unfold stepCard
  rw [hget, hin]
  simp only [hq, Bool.false_eq_true, if_false, hask, hmk.1]
  simp

theorem C2_witness :
    ((⟨"w", "d", "T", 1, 7⟩ : Card)).tally = max 0 ((10 : Int) - 3) ∧
    stepCard (⟨10, 3, false⟩ : Settings)
      (⟨[(⟨"w", "d", "T", 0, 8⟩ : Card)], false, [], [], ["", "n"]⟩ :
        SessionState) 0 =
      StepResult.cont
        (⟨[(⟨"w", "d", "T", 1, 7⟩ : Card)], false, [],
          [(⟨"w", "d", "T", 1, 7⟩ : Card)], []⟩ : SessionState) := by
  have h := C2_incorrect_response (⟨10, 3, false⟩ : Settings)
    (⟨[(⟨"w", "d", "T", 0, 8⟩ : Card)], false, [], [], ["", "n"]⟩ :
      SessionState) 0
    (⟨"w", "d", "T", 0, 8⟩ : Card) (⟨"w", "d", "T", 1, 7⟩ : Card)
    "" ["n"] [] false false (by decide) (by decide) (by decide) (by decide)
  exact ⟨h.1, h.2.trans (by decide)⟩

/-- C4: a quit token at any prompt ends the session with nothing saved
(`askCard` returns `quit`, which `go` turns into `quitNoSave`; the
pre-deck prompt quits to `earlyQuit`), and a completed pass with the
abort flag set saves nothing; in every case the on-disk file is left
unchanged because `_save` is never called. -/
theorem C4_quit_or_abort_discards :
    (∀ (st : Settings) (c : Card) (ab : Bool) (ans : String)
       (rest : List String), quitTok ans = true →
       askCard st c ab (ans :: rest) = AskResult.quit) ∧
    (∀ (st : Settings) (cards0 : List Card) (order : List Nat)
       (ans1 : String) (rest : List String), quitTok ans1 = true →
       go st cards0 order (ans1 :: rest) = some GoSessionResult.earlyQuit) ∧
    (∀ (st : Settings) (cards0 : List Card) (order : List Nat)
       (ans1 : String) (rest : List String), quitTok ans1 = false →
       runCards st order
         { cards := cards0, abort := false, unwanted := [],
           missed := [], inputs := rest } = StepResult.quit →
       go st cards0 order (ans1 :: rest) = some GoSessionResult.quitNoSave) ∧
    (goSaved GoSessionResult.earlyQuit = none ∧
     goSaved GoSessionResult.quitNoSave = none) ∧
    (∀ (s : SessionState) (out : GoOutcome), s.abort = true →
       finishPass s = GoFinish.done out → out.saved = none) := by
  refine ⟨?_, ?_, ?_, ⟨rfl, rfl⟩, ?_⟩
  · exact fun st c ab ans rest h => askCard_quit_of_quitTok st c ab ans rest h
  · intro st cards0 order ans1 rest h
    simp only [go, h, if_true]
  · intro st cards0 order ans1 rest h1 h2
    simp only [go, h1, Bool.false_eq_true, if_false, h2]
  · intro s out habort h
    rw [finishPass_saved s out h, habort]
    rfl

theorem C4_witness :
    askCard (⟨10, 10, false⟩ : Settings) (⟨"w", "d", "T", 1, 0⟩ : Card)
      false ["q"] = AskResult.quit ∧
    go (⟨10, 10, false⟩ : Settings) [(⟨"w", "d", "T", 0, 0⟩ : Card)] [0]
      ["e"] = some GoSessionResult.earlyQuit ∧
    go (⟨10, 10, false⟩ : Settings) [(⟨"w", "d", "T", 0, 0⟩ : Card)] [0]
      ["", "", "q"] = some GoSessionResult.quitNoSave ∧
    (∀ out, finishPass
        (⟨[(⟨"w", "d", "T", 1, 1⟩ : Card)], true, [], [], []⟩ :
          SessionState) = GoFinish.done out →
      out.saved = none) := by
  refine ⟨?_, ?_, ?_, ?_⟩
  · exact C4_quit_or_abort_discards.1 _ _ _ "q" [] (by decide)
  · exact C4_quit_or_abort_discards.2.1 _ _ _ "e" [] (by decide)
  · exact C4_quit_or_abort_discards.2.2.1 _ _ [0] "" ["", "q"]
      (by decide) (by decide)
  · intro out h
    exact C4_quit_or_abort_discards.2.2.2.2 _ out rfl h

/-- C9 (counterexample): on a deck that already carries two cards with
the same normalised word (such decks are loadable: `_open` does not
deduplicate), `add` replaces only the first match, so two cards with
that normalised word remain — not "exactly one" as claimed for every
deck. -/
theorem C9_counterexample :
    addCards "T" "cat" "d3"
        [(⟨"cat", "a", "T0", 0, 0⟩ : Card), (⟨"cat", "b", "T1", 0, 0⟩ : Card)] =
      some [(⟨"cat", "b", "T1", 0, 0⟩ : Card),
        (⟨"cat", "d3", "T0", 0, 0⟩ : Card)] ∧
    ¬(List.countP
        (fun (y : Card) => normalize y.word == normalize (subDelim "cat"))
        [(⟨"cat", "b", "T1", 0, 0⟩ : Card),
          (⟨"cat", "d3", "T0", 0, 0⟩ : Card)] = 1) := by
  constructor
  · decide
  · decide

/-- C9 (amended): provided the deck carries at most one card with the
matching normalised word (the documented identity invariant), `add`
leaves exactly one card with that normalised word — the new definition
with the prior card's `created_date` (and viewed/tally) — at the end of
the sequence. -/
theorem C9_upsert_amended (today w d : String) (A B : List Card) (x : Card)
    (hw : w.isEmpty = false) (hd : d.isEmpty = false)
    (hA : ∀ y ∈ A, normalize y.word ≠ normalize (subDelim w))
    (hx : normalize x.word = normalize (subDelim w))
    (hB : ∀ y ∈ B, normalize y.word ≠ normalize (subDelim w)) :
    addCards today w d (A ++ x :: B) =
      some (A ++ B ++
        [(⟨subDelim w, subDelim d, x.created, x.viewed, x.tally⟩ : Card)]) ∧
    List.countP (fun (y : Card) => normalize y.word == normalize (subDelim w))
      (A ++ B ++
        [(⟨subDelim w, subDelim d, x.created, x.viewed, x.tally⟩ : Card)]) = 1 ∧
    (A ++ B ++
        [(⟨subDelim w, subDelim d, x.created, x.viewed, x.tally⟩ : Card)]).getLast?
      = some (⟨subDelim w, subDelim d, x.created, x.viewed, x.tally⟩ : Card) := by
  refine ⟨?_, ?_, ?_⟩
  · unfold addCards
    rw [hw, hd]
    simp only [Bool.not_false, Bool.and_self, if_true]
    rw [addLoop_found (subDelim w) (subDelim d) A B x hA hx]
  · rw [List.countP_append, List.countP_append]
    have hA0 : List.countP
        (fun (y : Card) => normalize y.word == normalize (subDelim w)) A = 0 :=
      List.countP_eq_zero.mpr
        (fun y hy => by simp only [beq_iff_eq]; exact hA y hy)
    have hB0 : List.countP
        (fun (y : Card) => normalize y.word == normalize (subDelim w)) B = 0 :=
      List.countP_eq_zero.mpr
        (fun y hy => by simp only [beq_iff_eq]; exact hB y hy)
    rw [hA0, hB0]
    simp [List.countP_cons]
  · exact List.getLast?_concat _

theorem C9_witness :
    addCards "T" "cat" "d2" [(⟨"cat", "d1", "T0", 2, 3⟩ : Card)] =
      some [(⟨"cat", "d2", "T0", 2, 3⟩ : Card)] ∧
    List.countP (fun (y : Card) => normalize y.word == normalize (subDelim "cat"))
      [(⟨"cat", "d2", "T0", 2, 3⟩ : Card)] = 1 ∧
    ([(⟨"cat", "d2", "T0", 2, 3⟩ : Card)]).getLast? =
      some (⟨"cat", "d2", "T0", 2, 3⟩ : Card) := by
  have h := C9_upsert_amended "T" "cat" "d2" [] []
    (⟨"cat", "d1", "T0", 2, 3⟩ : Card)
    (by decide) (by decide) (by intro y hy; cases hy) (by decide)
    (by intro y hy; cases hy)
  exact h

/-- C10: the stored `abort` setting alone never suppresses saving:
line 714 resets the session-local flag to `False` unconditionally before
the first card, so a pass completed without any `a` toggle saves the
updated deck even when `_settings['abort']` is `True`. -/
theorem C10_stored_abort_reset (st : Settings) (cards0 : List Card)
    (order : List Nat) (ans1 : String) (rest : List String)
    (out : GoOutcome)
    (_habort : st.abort = true)
    (hq : quitTok ans1 = false)
    (hnoa : ∀ a ∈ rest, firstIs a 'a' = false)
    (hdone : go st cards0 order (ans1 :: rest) =
      some (GoSessionResult.done out)) :
    out.saved = some out.finalCards := by
  simp only [go, hq, Bool.false_eq_true, if_false] at hdone
  cases hrun : runCards st order
      { cards := cards0, abort := false, unwanted := [], missed := [],
        inputs := rest } with
  | stuck => rw [hrun] at hdone; cases hdone
  | quit => rw [hrun] at hdone; cases hdone
  | cont s =>
    rw [hrun] at hdone
    simp only at hdone
    have habf : s.abort = false :=
      runCards_abort_false st order _ s hrun rfl hnoa
    cases hfin : finishPass s with
    | crash => rw [hfin] at hdone; cases hdone
    | done o =>
      rw [hfin] at hdone
      cases hdone
      rw [finishPass_saved s out hfin, habf]
      rfl

/-- C8: on every completed pass with at least one miss, the reported
percentage is the truncation of `100 * (remaining - missed) / remaining`
with `remaining` the post-removal deck size, and that division never
divides by zero (a missed card is never removed, so the deck stays
nonempty). -/
theorem C8_percent_truncation (st : Settings) (cards0 : List Card)
    (order : List Nat) (ans1 : String) (inputs : List String)
    (s : SessionState)
    (hnd : order.Nodup) (hb : ∀ i ∈ order, i < cards0.length)
    (hq : quitTok ans1 = false)
    (hrun : runCards st order
      { cards := cards0, abort := false, unwanted := [], missed := [],
        inputs := inputs } = StepResult.cont s)
    (hm : s.missed ≠ []) :
    ∃ out, go st cards0 order (ans1 :: inputs) =
        some (GoSessionResult.done out) ∧
      0 < out.finalCards.length ∧
      out.missed = s.missed ∧
      out.percent = some
        (((100 * (out.finalCards.length - out.missed.length)) /
          out.finalCards.length : Nat) : Int) := by
  obtain ⟨hlen, hwords, hund, hub, hcount, hrem, hmle⟩ :=
    runCards_full st cards0 order inputs s hrun hnd hb
  obtain ⟨hle, hpos⟩ := hmle hm
  have h0 : (removeUnwanted s.cards s.unwanted).length ≠ 0 := by omega
  have hfin := finishPass_missed s hm h0
  refine ⟨_, go_done st cards0 order ans1 inputs s _ hq hrun hfin, hpos,
    rfl, ?_⟩
  show some _ = some _
  congr 1
  rw [Int.ofNat_tdiv, Nat.cast_mul, Nat.cast_sub hle]
  norm_num

theorem C8_witness :
    ∃ out, go (⟨10, 10, false⟩ : Settings)
        [(⟨"a", "d", "T", 0, 0⟩ : Card), (⟨"b", "d", "T", 0, 0⟩ : Card),
         (⟨"c", "d", "T", 0, 0⟩ : Card), (⟨"d", "d", "T", 0, 0⟩ : Card),
         (⟨"e", "d", "T", 0, 0⟩ : Card)]
        [0, 1, 2, 3, 4]
        ["", "", "n", "", "", "", "", "", "", "", ""] =
      some (GoSessionResult.done out) ∧
      0 < out.finalCards.length ∧
      out.missed = [(⟨"a", "d", "T", 1, 0⟩ : Card)] ∧
      out.percent = some
        (((100 * (out.finalCards.length - out.missed.length)) /
          out.finalCards.length : Nat) : Int) := by
  exact C8_percent_truncation (⟨10, 10, false⟩ : Settings)
    [(⟨"a", "d", "T", 0, 0⟩ : Card), (⟨"b", "d", "T", 0, 0⟩ : Card),
     (⟨"c", "d", "T", 0, 0⟩ : Card), (⟨"d", "d", "T", 0, 0⟩ : Card),
     (⟨"e", "d", "T", 0, 0⟩ : Card)]
    [0, 1, 2, 3, 4] "" ["", "n", "", "", "", "", "", "", "", ""]
    (⟨[(⟨"a", "d", "T", 1, 0⟩ : Card), (⟨"b", "d", "T", 1, 1⟩ : Card),
       (⟨"c", "d", "T", 1, 1⟩ : Card), (⟨"d", "d", "T", 1, 1⟩ : Card),
       (⟨"e", "d", "T", 1, 1⟩ : Card)], false, [],
      [(⟨"a", "d", "T", 1, 0⟩ : Card)], []⟩ : SessionState)
    (by decide) (by decide) (by decide) (by decide) (by decide)

/-- C1: a correct answer (`y`/`Y`, empty, or any token no earlier branch
claims) increments the card's tally by exactly one, and when the new
tally reaches `maxtally` the card is marked and is absent from the deck
that a non-aborted pass saves (stated for decks with pairwise-distinct
words, the documented card-identity invariant). -/
theorem C1_correct_response (st : Settings) (cards0 : List Card)
    (pre post : List Nat) (k : Nat) (ans1 ans0 : String)
    (inputs rest0 rest : List String) (s1 sf : SessionState)
    (ck c' : Card) (mark ab : Bool)
    (hnd : (pre ++ k :: post).Nodup)
    (hb : ∀ i ∈ pre ++ k :: post, i < cards0.length)
    (hq1 : quitTok ans1 = false)
    (hpre : runCards st pre
      { cards := cards0, abort := false, unwanted := [], missed := [],
        inputs := inputs } = StepResult.cont s1)
    (hget : s1.cards[k]? = some ck)
    (hin : s1.inputs = ans0 :: rest0)
    (hq0 : quitTok ans0 = false)
    (hask : askCard st { ck with viewed := ck.viewed + 1 } s1.abort rest0 =
      AskResult.advanced c' false mark ab rest)
    (hpost : runCards st post
      { cards := s1.cards.set k c', abort := ab,
        unwanted := (if mark then s1.unwanted ++ [k] else s1.unwanted),
        missed := s1.missed, inputs := rest } = StepResult.cont sf) :
    c'.tally = ck.tally + 1 ∧
    (st.maxtally ≤ c'.tally →
      (cards0.map Card.word).Nodup →
      sf.abort = false →
      ∃ out, go st cards0 (pre ++ k :: post) (ans1 :: inputs) =
          some (GoSessionResult.done out) ∧
        out.saved = some out.finalCards ∧
        c'.word ∉ out.finalCards.map Card.word) := by
  obtain ⟨hword, _, _, _, hd⟩ :=
    askCard_advanced_spec st { ck with viewed := ck.viewed + 1 } rest0
      s1.abort c' false mark ab rest hask
  have htally : c'.tally = ck.tally + 1 := by
    rcases hd with ⟨hf, _, _⟩ | ⟨_, ht, _⟩
    · cases hf
    · exact ht
  have hmkiff : mark = true ↔ st.maxtally ≤ c'.tally := by
    rcases hd with ⟨hf, _, _⟩ | ⟨_, _, hiff⟩
    · cases hf
    · exact hiff
  refine ⟨htally, ?_⟩
  intro hle hwnd habf
  have hmark : mark = true := hmkiff.mpr hle
  subst hmark
  -- the step on card k
  have hstep : stepCard st s1 k = StepResult.cont
      { cards := s1.cards.set k c', abort := ab,
        unwanted := s1.unwanted ++ [k],
        missed := s1.missed, inputs := rest } := by
    unfold stepCard
    rw [hget, hin]
    simp only [hq0, Bool.false_eq_true, if_false, hask]
    simp
  -- the whole pass
  have hfull : runCards st (pre ++ k :: post)
      { cards := cards0, abort := false, unwanted := [], missed := [],
        inputs := inputs } = StepResult.cont sf := by
    rw [runCards_append, hpre]
    simp only [runCards, hstep]
    simp only [if_true] at hpost
    exact hpost
  obtain ⟨hlen, hwords, hund, hub, _, hrem, hmle⟩ :=
    runCards_full st cards0 (pre ++ k :: post) inputs sf hfull hnd hb
  -- position k stays marked and holds c' at the end of the pass
  have hknotpost : k ∉ post := by
    have h2 := (List.nodup_append.mp hnd).1
    have h3 := List.Nodup.of_append_right hnd
    exact (List.nodup_cons.mp h3).1
  have hkmem : k ∈ sf.unwanted := by
    obtain ⟨_, _, ⟨tail, htail, _⟩, _, _⟩ :=
      runCards_cont_inv st post _ sf hpost
    simp only [if_true] at htail
    rw [htail]
    exact List.mem_append_left tail
      (List.mem_append_right s1.unwanted (List.mem_singleton.mpr rfl))
  have hklen : k < s1.cards.length :=
    (List.getElem?_eq_some_iff.mp hget).1
  have hgetf : sf.cards[k]? = some c' := by
    obtain ⟨_, _, _, hpres, _⟩ := runCards_cont_inv st post _ sf hpost
    have := hpres k hknotpost
    simp only [if_true] at this
    rw [this]
    exact List.getElem?_set_self hklen
  have hgetw : (sf.cards.map Card.word)[k]? = some c'.word := by
    rw [List.getElem?_map, hgetf]
    rfl
  have hwndf : (sf.cards.map Card.word).Nodup := by
    rw [hwords]
    exact hwnd
  have habsent : c'.word ∉
      (removeUnwanted sf.cards sf.unwanted).map Card.word :=
    removeUnwanted_word_absent sf.cards sf.unwanted k c'.word hund hub
      hwndf hkmem hgetw
  -- assemble the saved deck
  cases hmcase : sf.missed with
  | nil =>
    have hfin := finishPass_no_missed sf hmcase
    rw [habf] at hfin
    refine ⟨_, go_done st cards0 (pre ++ k :: post) ans1 inputs sf _ hq1
      hfull hfin, ?_, ?_⟩
    · rfl
    · exact habsent
  | cons m ms =>
    have hmne : sf.missed ≠ [] := by rw [hmcase]; intro he; cases he
    have h0 : (removeUnwanted sf.cards sf.unwanted).length ≠ 0 := by
      obtain ⟨_, hpos⟩ := hmle hmne
      omega
    have hfin := finishPass_missed sf hmne h0
    rw [habf] at hfin
    refine ⟨_, go_done st cards0 (pre ++ k :: post) ans1 inputs sf _ hq1
      hfull hfin, ?_, ?_⟩
    · rfl
    · exact habsent

theorem C1_witness :
    ((⟨"w", "d", "T", 1, 1⟩ : Card)).tally =
      ((⟨"w", "d", "T", 0, 0⟩ : Card)).tally + 1 ∧
    ∃ out, go (⟨1, 1, false⟩ : Settings) [(⟨"w", "d", "T", 0, 0⟩ : Card)]
        [0] ["", "", ""] = some (GoSessionResult.done out) ∧
      out.saved = some out.finalCards ∧
      ((⟨"w", "d", "T", 1, 1⟩ : Card)).word ∉ out.finalCards.map Card.word := by
  have h := C1_correct_response (⟨1, 1, false⟩ : Settings)
    [(⟨"w", "d", "T", 0, 0⟩ : Card)] [] [] 0 "" "" ["", ""] [""] []
    (⟨[(⟨"w", "d", "T", 0, 0⟩ : Card)], false, [], [], ["", ""]⟩ :
      SessionState)
    (⟨[(⟨"w", "d", "T", 1, 1⟩ : Card)], false, [0], [], []⟩ : SessionState)
    (⟨"w", "d", "T", 0, 0⟩ : Card) (⟨"w", "d", "T", 1, 1⟩ : Card)
    true false (by decide) (by decide) (by decide) (by decide) (by decide)
    (by decide) (by decide) (by decide) (by decide)
  exact ⟨h.1, h.2 (by decide) (by decide) (by decide)⟩

theorem C10_witness :
    ((⟨[(⟨"w", "d", "T", 1, 1⟩ : Card)], false, [], [], none,
        some [(⟨"w", "d", "T", 1, 1⟩ : Card)]⟩ : GoOutcome)).saved =
      some ((⟨[(⟨"w", "d", "T", 1, 1⟩ : Card)], false, [], [], none,
        some [(⟨"w", "d", "T", 1, 1⟩ : Card)]⟩ : GoOutcome)).finalCards := by
  exact C10_stored_abort_reset (⟨10, 10, true⟩ : Settings)
    [(⟨"w", "d", "T", 0, 0⟩ : Card)] [0] "" ["", ""]
    (⟨[(⟨"w", "d", "T", 1, 1⟩ : Card)], false, [], [], none,
      some [(⟨"w", "d", "T", 1, 1⟩ : Card)]⟩ : GoOutcome) rfl
    (by decide) (by decide) (by decide)

end Flashcardz
